import Mathlib

/-!
Verification of the `retrieval_eval_incomplete` repository (an OWL
concept-learning toolkit with a semantic-caching experimentation harness).

Each Python component relevant to the frozen claims is shallowly embedded:
pure functions become Lean functions over `Finset`/`List`/`ℚ`, stateful
code becomes explicit state passing, fallible code returns `Except`.
Python floats are modelled as rationals (the claims under study are
order-theoretic and exact-zero statements, not rounding statements), and
Python exceptions are modelled as `Except.error` carrying a message.
-/

deriving instance DecidableEq for Except

namespace StaticFuncs

/-- Embeds `compute_tp_fn_fp_tn` of `src/ontolearn/utils/static_funcs.py`:
the four confusion counts of a retrieval `individuals` against positive
and negative example sets. -/
def compute_tp_fn_fp_tn {ι : Type} [DecidableEq ι]
    (individuals pos neg : Finset ι) : ℕ × ℕ × ℕ × ℕ :=
  ((pos ∩ individuals).card, (pos \ individuals).card,
    (neg ∩ individuals).card, (neg \ individuals).card)

/-- Embeds `compute_f1_score` of `src/ontolearn/utils/static_funcs.py`.
The Python `try: recall = tp/(tp+fn) except ZeroDivisionError: return 0.0`
blocks become explicit zero tests on the denominators, mirroring control
flow line by line; division is exact rational division. -/
def compute_f1_score {ι : Type} [DecidableEq ι]
    (individuals pos neg : Finset ι) : ℚ :=
  let tp : ℕ := (pos ∩ individuals).card
  let fp : ℕ := (neg ∩ individuals).card
  let fn : ℕ := (pos \ individuals).card
  if tp + fn = 0 then 0
  else
    let recallQ : ℚ := (tp : ℚ) / ((tp : ℚ) + (fn : ℚ))
    if tp + fp = 0 then 0
    else
      let precision : ℚ := (tp : ℚ) / ((tp : ℚ) + (fp : ℚ))
      if precision = 0 ∨ recallQ = 0 then 0
      else 2 * ((precision * recallQ) / (precision + recallQ))

/-- Precision `tp / (tp + fp)` as the spec states it (§4.11), for the
confusion counts of `compute_f1_score`. -/
def precisionOf {ι : Type} [DecidableEq ι] (individuals pos neg : Finset ι) : ℚ :=
  ((pos ∩ individuals).card : ℚ) /
    (((pos ∩ individuals).card : ℚ) + ((neg ∩ individuals).card : ℚ))

/-- Recall `tp / (tp + fn)` as the spec states it (§4.11). -/
def recallOf {ι : Type} [DecidableEq ι] (individuals pos neg : Finset ι) : ℚ :=
  ((pos ∩ individuals).card : ℚ) /
    (((pos ∩ individuals).card : ℚ) + ((pos \ individuals).card : ℚ))

end StaticFuncs

namespace SemanticCaching

/-- The five eviction strategy tags of `CacheWithEviction`
(`src/ontolearn/semantic_caching.py`). -/
inductive Strategy
  | FIFO
  | LIFO
  | LRU
  | MRU
  | RP
deriving DecidableEq, Repr

/-- State of a `CacheWithEviction` instance
(`src/ontolearn/semantic_caching.py`, `__init__`).  `cache` models the
`OrderedDict` as an association list in insertion order (head = oldest);
`access_times` models the timestamp table; timestamps are rationals fed in
by the caller (Python reads `time.time()`).  The `initialized` flag of the
source only gates `initialize_cache` and plays no role in `put`/`get`/
`is_full`, so it is not carried here; it is listed among the instance's
attribute names below. -/
structure CacheWithEviction (V : Type) where
  cache : List (String × V)
  access_times : List (String × ℚ)
  cache_size : ℕ
  strategy : Strategy
  random_seed : ℕ
deriving Repr

/-- The attribute names assigned on a `CacheWithEviction` instance anywhere
in the class body (`__init__` assigns all six; no other method assigns a
new attribute).  In particular `max_size` is never assigned. -/
def cacheAttributeNames : List String :=
  ["cache", "access_times", "cache_size", "strategy", "random_seed", "initialized"]

/-- The integer-valued attributes readable on a `CacheWithEviction`
instance, as a name-to-value environment: attribute lookup on the instance
resolves a name against this list or raises `AttributeError`. -/
def intAttributes {V : Type} (s : CacheWithEviction V) : List (String × ℕ) :=
  [("cache_size", s.cache_size), ("random_seed", s.random_seed)]

/-- Remove the entry with the given key from an association list
(models `del d[key]`). -/
def removeKey {V : Type} (l : List (String × V)) (k : String) : List (String × V) :=
  l.filter (fun p => p.1 ≠ k)

/-- First key whose value is minimal (models Python's
`min(d, key=d.get)`: iteration order, first minimum wins). -/
def argminKey (l : List (String × ℚ)) : Option String :=
  l.foldl (fun acc p =>
    match acc with
    | none => some p
    | some q => if p.2 < q.2 then some p else some q) none
  |>.map Prod.fst

/-- First key whose value is maximal (models `max(d, key=d.get)`). -/
def argmaxKey (l : List (String × ℚ)) : Option String :=
  l.foldl (fun acc p =>
    match acc with
    | none => some p
    | some q => if q.2 < p.2 then some p else some q) none
  |>.map Prod.fst

/-- Embeds `CacheWithEviction._evict`.  The seeded `random.choice` of the
`RP` strategy is supplied by the caller as `rng` (a choice function over
the current key list); `min`/`max` over an empty table raise `ValueError`
in Python, modelled as `Except.error`. -/
def evict {V : Type} (rng : List String → Option String)
    (s : CacheWithEviction V) : Except String (CacheWithEviction V) :=
  if s.cache.length > s.cache_size then
    match s.strategy with
    | .FIFO => .ok { s with cache := s.cache.drop 1 }
    | .LIFO => .ok { s with cache := s.cache.dropLast }
    | .LRU =>
      match argminKey s.access_times with
      | none => .error "ValueError: min() arg is an empty sequence"
      | some k => .ok { s with cache := removeKey s.cache k,
                               access_times := removeKey s.access_times k }
    | .MRU =>
      match argmaxKey s.access_times with
      | none => .error "ValueError: max() arg is an empty sequence"
      | some k => .ok { s with cache := removeKey s.cache k,
                               access_times := removeKey s.access_times k }
    | .RP =>
      match rng (s.cache.map Prod.fst) with
      | none => .error "IndexError: random.choice on empty list"
      | some k => .ok { s with cache := removeKey s.cache k,
                               access_times := removeKey s.access_times k }
  else .ok s

/-- Embeds `CacheWithEviction.put`: delete an existing entry for the key,
run `_evict`, append the entry at the back, and record the access time
under `LRU`/`MRU`.  `now` stands for `time.time()`. -/
def put {V : Type} (rng : List String → Option String) (now : ℚ)
    (s : CacheWithEviction V) (k : String) (v : V) :
    Except String (CacheWithEviction V) := do
  let s1 := if (s.cache.lookup k).isSome then { s with cache := removeKey s.cache k } else s
  let s2 ← evict rng s1
  let s3 := { s2 with cache := s2.cache ++ [(k, v)] }
  if s3.strategy = .LRU ∨ s3.strategy = .MRU then
    return { s3 with access_times := removeKey s3.access_times k ++ [(k, now)] }
  else
    return s3

/-- Embeds `CacheWithEviction.get`: returns the cached value (or `none`)
and the state with the access timestamp refreshed under `LRU`/`MRU`. -/
def get {V : Type} (now : ℚ) (s : CacheWithEviction V) (k : String) :
    Option V × CacheWithEviction V :=
  match s.cache.lookup k with
  | some v =>
    if s.strategy = .LRU ∨ s.strategy = .MRU then
      (some v, { s with access_times := removeKey s.access_times k ++ [(k, now)] })
    else (some v, s)
  | none => (none, s)

/-- Embeds `CacheWithEviction.is_full`: reads `self.max_size` through the
instance's attribute environment and compares `len(self.cache)` against
it; an unresolvable attribute name raises `AttributeError`. -/
def is_full {V : Type} (s : CacheWithEviction V) : Except String Bool :=
  match (intAttributes s).lookup "max_size" with
  | some m => .ok (decide (s.cache.length ≥ m))
  | none => .error "AttributeError: CacheWithEviction object has no attribute max_size"

/-- Embeds `CacheWithEviction.__init__`. -/
def init (V : Type) (cache_size : ℕ) (strategy : Strategy) (random_seed : ℕ) :
    CacheWithEviction V :=
  { cache := [], access_times := [], cache_size := cache_size,
    strategy := strategy, random_seed := random_seed }

end SemanticCaching

namespace KB

/-- Modelled from the spec: `PosNegLPStandard` (§4.12, §3) is "a value type
holding positive and negative example individuals (and an optional
restricted universe)"; `learning_problem.py` itself is not part of the
excerpt, only its consumer `KnowledgeBase.encode_learning_problem` is. -/
structure PosNegLPStandard (ι : Type) where
  pos : Finset ι
  neg : Finset ι
  all : Option (Finset ι)
deriving DecidableEq

/-- The encoded learning problem returned by
`KnowledgeBase.encode_learning_problem` (`src/ontolearn/knowledge_base.py`):
the four derived sets. -/
structure EncodedPosNegLPStandard (ι : Type) where
  kb_pos : Finset ι
  kb_neg : Finset ι
  kb_all : Finset ι
  kb_diff : Finset ι
deriving DecidableEq

/-- The universe `kb_all` chosen by the encoder: the restricted universe
`lp.all` when supplied, otherwise the knowledge base's full individual
set. -/
def universeOf {ι : Type} (allIndividuals : Finset ι) (lp : PosNegLPStandard ι) :
    Finset ι :=
  match lp.all with
  | none => allIndividuals
  | some a => a

/-- Embeds the `PosNegLPStandard` registration of
`KnowledgeBase.encode_learning_problem` (`src/ontolearn/knowledge_base.py`,
lines 421-472).  `hierarchySize` stands for `len(self.class_hierarchy())`,
`allIndividuals` for `self.all_individuals_set()`, and `sample` for
`random.sample` (a sampler producing, for a population and a size, the
sampled set; its without-replacement/uniformity contract is stated as a
hypothesis on `sample` in the theorems).  `individuals_set` applied to a
set of individuals is the identity (a `frozenset` copy), so `kb_pos` is
`lp.pos` directly; the two post-hoc `assert len(...) == len(...)` checks of
the source then hold definitionally and are omitted.  Failed `assert`
statements become `Except.error`. -/
def encode_learning_problem {ι : Type} [DecidableEq ι]
    (hierarchySize : ℕ) (allIndividuals : Finset ι)
    (sample : Finset ι → ℕ → Finset ι) (lp : PosNegLPStandard ι) :
    Except String (EncodedPosNegLPStandard ι) :=
  if hierarchySize = 0 then
    .error "AssertionError: empty class hierarchy"
  else
    let kb_all : Finset ι := universeOf allIndividuals lp
    if 0 < lp.pos.card ∧ lp.pos.card < kb_all.card ∧ lp.neg.card < kb_all.card then
      let kb_pos := lp.pos
      let kb_neg := if lp.neg.card = 0 then sample kb_all kb_pos.card else lp.neg
      .ok { kb_pos := kb_pos, kb_neg := kb_neg, kb_all := kb_all,
            kb_diff := kb_all \ (kb_pos ∪ kb_neg) }
    else
      .error "AssertionError: 0 < len(lp.pos) < len(kb_all) and len(kb_all) > len(lp.neg)"

end KB

namespace DrillM

/-- A Python runtime value as far as the `Drill` stub methods are
concerned: `None`, or an exception object (class name and message). -/
inductive PyValue
  | none
  | exc (cls : String) (msg : String)
deriving DecidableEq, Repr

/-- Evaluating the expression `ValueError(msg)`: this constructs an
exception object; evaluated as a bare expression statement (no `raise`),
the object is simply discarded. -/
def valueErrorExpr (msg : String) : PyValue := .exc "ValueError" msg

/-- Embeds `Drill.best_hypotheses` (`src/ontolearn/concept_learner.py`):
the body is the single expression statement `ValueError('best_hypotheses')`
— the exception object is built and discarded, and the method returns
`None` without raising. -/
def best_hypotheses : Except PyValue PyValue :=
  let _ := valueErrorExpr "best_hypotheses"
  .ok .none

/-- Embeds `Drill.clean` (`src/ontolearn/concept_learner.py`): the body is
the bare expression `ValueError('clean')`; returns `None`, raises nothing. -/
def clean : Except PyValue PyValue :=
  let _ := valueErrorExpr "clean"
  .ok .none

/-- Embeds `Drill.downward_refinement`: bare `ValueError('downward_refinement')`;
returns `None`, raises nothing. -/
def downward_refinement : Except PyValue PyValue :=
  let _ := valueErrorExpr "downward_refinement"
  .ok .none

/-- Embeds `Drill.fit` (`src/ontolearn/concept_learner.py`, line 417): the
body is the bare expression `ValueError('fit')`; returns `None`, raises
nothing. -/
def fit : Except PyValue PyValue :=
  let _ := valueErrorExpr "fit"
  .ok .none

/-- Embeds `Drill.show_search_tree`: bare `ValueError('show_search_tree')`;
returns `None`, raises nothing. -/
def show_search_tree : Except PyValue PyValue :=
  let _ := valueErrorExpr "show_search_tree"
  .ok .none

/-- Embeds `Drill.terminate_training`: bare `ValueError('terminate_training')`;
returns `None`, raises nothing. -/
def terminate_training : Except PyValue PyValue :=
  let _ := valueErrorExpr "terminate_training"
  .ok .none

/-- An `RL_State` as far as `Drill.next_node_to_expand` is concerned:
the DRILL search tree indexes states by the textual DL rendering of their
concept. -/
structure RLState where
  dl : String
  quality : ℚ
  heuristic : ℚ
deriving DecidableEq, Repr

/-- State of a `DRILLSearchTreePriorityQueue`
(`src/ontolearn/search.py`): queue entries are
`(-heuristic, len(dl), dl)` triples, `nodes` maps the DL rendering to the
state object. -/
structure DrillSearchTree where
  items_in_queue : List (ℚ × ℕ × String)
  nodes : List (String × RLState)

/-- Smallest queue entry by the numeric priority prefix
`(-heuristic, textual length)`, earliest entry winning ties (the stdlib
heap additionally orders full ties by the string component; the claims
under study do not depend on that tie order). -/
def popMinEntry : List (ℚ × ℕ × String) → Option ((ℚ × ℕ × String) × List (ℚ × ℕ × String))
  | [] => none
  | e :: es =>
    match popMinEntry es with
    | none => some (e, [])
    | some (m, rest) =>
      if e.1 < m.1 ∨ (e.1 = m.1 ∧ e.2.1 ≤ m.2.1) then some (e, es)
      else some (m, e :: rest)

/-- Embeds `DRILLSearchTreePriorityQueue.get_most_promising`
(`src/ontolearn/search.py`, lines 773-788): asserts the queue is non-empty
(message "Search tree is empty..."), pops the smallest entry, and resolves
it through the `nodes` index (a missing key raises `KeyError`). -/
def get_most_promising (t : DrillSearchTree) : Except PyValue (RLState × DrillSearchTree) :=
  match popMinEntry t.items_in_queue with
  | Option.none =>
    .error (.exc "AssertionError" "Search tree is empty. Ensure that there is at least one owl:Class or owl:ObjectProperty definitions")
  | some (e, rest) =>
    match t.nodes.lookup e.2.2 with
    | Option.none => .error (.exc "KeyError" e.2.2)
    | some node => .ok (node, { t with items_in_queue := rest })

/-- Embeds `Drill.next_node_to_expand` (`src/ontolearn/concept_learner.py`,
lines 573-581, with `verbose ≤ 1` so the display branch is skipped): it
simply delegates to the search tree's `get_most_promising`. -/
def next_node_to_expand (t : DrillSearchTree) : Except PyValue (RLState × DrillSearchTree) :=
  get_most_promising t

end DrillM

namespace CELOE

/-- An `OENode` as far as `CELOE.next_node_to_expand` is concerned: in the
heuristic queue both scores are always set, so they are plain rationals;
`id` keeps distinct nodes with equal scores distinguishable. -/
structure OENode where
  id : ℕ
  quality : ℚ
  heuristic : ℚ
deriving DecidableEq, Repr

/-- Embeds `CELOE.next_node_to_expand` (`src/ontolearn/concept_learner.py`,
lines 114-123).  `queue` is the `heuristic_queue` `SortedSet`, listed in
ascending heuristic order (the heuristically best node last).  With
`best_only` false the code scans `reversed(heuristic_queue)` and returns
the first node of quality < 1.0, and the `for/else` raises
`ValueError("No Node with lesser accuracy found")` when the scan falls
through; with `best_only` true it returns `heuristic_queue[-1]` (an empty
list raises `IndexError`). -/
def next_node_to_expand (best_only : Bool) (queue : List OENode) :
    Except String OENode :=
  if best_only = false then
    match queue.reverse.find? (fun n => decide (n.quality < 1)) with
    | some n => .ok n
    | none => .error "No Node with lesser accuracy found"
  else
    match queue.getLast? with
    | some n => .ok n
    | none => .error "IndexError: list index out of range"

end CELOE

namespace STPQ

/-- An `LBLNode` (`src/ontolearn/search.py`): concept, weak parent
reference (represented by the parent's concept — in a search tree a
concept identifies its node), an explicit children set, and the
single-assignment quality plus the resettable heuristic (both `Option`:
`none` = not yet computed). -/
structure LBLNode (α : Type) where
  concept : α
  parent : Option α
  children : List α
  quality : Option ℚ
  heuristic : Option ℚ
deriving DecidableEq, Repr

/-- State of a `SearchTreePriorityQueue` (`src/ontolearn/search.py`):
`nodes` is the concept-to-node dictionary, `items_in_queue` holds
`(-heuristic, concept)` entries (the `PriorityQueue` as a multiset of
entries; ordering is irrelevant to the claims proved here). -/
structure Tree (α : Type) where
  nodes : List (α × LBLNode α)
  items_in_queue : List (ℚ × α)
deriving DecidableEq, Repr

/-- Dictionary assignment `d[k] = v` on an association list. -/
def dictSet {α β : Type} [DecidableEq α] (l : List (α × β)) (k : α) (v : β) :
    List (α × β) :=
  if (l.lookup k).isSome then
    l.map (fun p => if p.1 = k then (k, v) else p)
  else l ++ [(k, v)]

/-- Apply `f` to the node stored under concept `c`, if any (renders a
mutation of the node object reachable through the index). -/
def updateNode {α : Type} [DecidableEq α] (t : Tree α) (c : α)
    (f : LBLNode α → LBLNode α) : Tree α :=
  { t with nodes := t.nodes.map (fun p => if p.1 = c then (p.1, f p.2) else p) }

/-- Modelled from the spec: a quality function's `apply` "computes
true/false positive/negative counts against the encoded learning problem"
and sets `node.quality` (§4.11); quality is single-assignment — setting it
twice raises (§7, `_NodeQuality` setter in `src/ontolearn/search.py`).
`metrics.py` itself is not part of the excerpt; the score is abstracted
into `qf`. -/
def qualityApply {α : Type} (qf : α → ℚ) (n : LBLNode α) :
    Except String (LBLNode α) :=
  match n.quality with
  | some _ => .error "ValueError: Node already evaluated"
  | none => .ok { n with quality := some (qf n.concept) }

/-- Modelled from the spec: a heuristic's `apply` "sets `node.heuristic`"
(§4.11) and heuristic is "settable, resettable to recompute" (§3);
`heuristics.py` itself is not part of the excerpt; the score is abstracted
into `hf`. -/
def heuristicApply {α : Type} (hf : α → ℚ) (n : LBLNode α) : LBLNode α :=
  { n with heuristic := some (hf n.concept) }

/-- Embeds `SearchTreePriorityQueue.add_node`
(`src/ontolearn/search.py`, lines 586-624), parameterized by the quality
and heuristic scoring functions `qf`/`hf` (see `qualityApply`,
`heuristicApply`).  `node` is the incoming node object, `pc` the concept
of `parent_node` (assumed live in the tree; object mutations are rendered
by returning the updated node record together with the updated tree).

Branch 1 (`node.concept in self.nodes and node.parent_node != parent_node`):
read `old_heuristic = node.heuristic` (comparing against an unset
heuristic raises `TypeError` downstream), recompute the heuristic, and if
strictly greater detach the node from its old parent's children, attach it
under `pc`, re-enqueue and re-index it; otherwise change nothing and
return `None`.  `node.parent_node.remove_child(node)` with no parent
raises `AttributeError`.

Branch 2 (otherwise): score the quality; quality 0 returns `False` with
nothing registered; otherwise compute the heuristic, enqueue, index,
attach as child of `pc`, and return `True` exactly on quality 1, else
`None`. -/
def add_node {α : Type} [DecidableEq α] (qf hf : α → ℚ) (t : Tree α)
    (node : LBLNode α) (pc : α) :
    Except String (Tree α × LBLNode α × Option Bool) :=
  if (t.nodes.lookup node.concept).isSome ∧ node.parent ≠ some pc then
    match node.heuristic with
    | Option.none => .error "TypeError: '>' not supported between float and NoneType"
    | some oldH =>
      let node1 := heuristicApply hf node
      let newH := hf node.concept
      if oldH < newH then
        match node1.parent with
        | Option.none => .error "AttributeError: NoneType object has no attribute remove_child"
        | some oldP =>
          let t1 := updateNode t oldP
            (fun p => { p with children := p.children.erase node1.concept })
          let node2 := { node1 with parent := some pc }
          let t2 := updateNode t1 pc
            (fun p => { p with children := p.children ++ [node2.concept] })
          let t3 := { t2 with items_in_queue := t2.items_in_queue ++ [(-newH, node2.concept)] }
          let t4 := { t3 with nodes := dictSet t3.nodes node2.concept node2 }
          .ok (t4, node2, Option.none)
      else
        .ok (t, node1, Option.none)
  else
    match qualityApply qf node with
    | .error e => .error e
    | .ok node1 =>
      if qf node.concept = 0 then
        .ok (t, node1, some false)
      else
        let node2 := heuristicApply hf node1
        let t1 := { t with items_in_queue := t.items_in_queue ++ [(-(hf node.concept), node2.concept)] }
        let t2 := { t1 with nodes := dictSet t1.nodes node2.concept node2 }
        let t3 := updateNode t2 pc (fun p => { p with children := p.children ++ [node2.concept] })
        .ok (t3, node2, if qf node.concept = 1 then some true else Option.none)

end STPQ

namespace SemanticCaching

/-- Python's `\w` character class as used by `transform_forall_to_exists`
(`src/ontolearn/semantic_caching.py`): word characters.  Modelled on the
ASCII range `[A-Za-z0-9_]` (the theorems below assume names drawn from this
range). -/
def isWordChar (c : Char) : Bool := c.isAlphanum || c = '_'

/-- Consume one expected literal character (one literal of the regex
pattern). -/
def expectChar (c : Char) : List Char → Option (List Char)
  | x :: xs => if x = c then some xs else none
  | [] => none

/-- Consume a greedy, non-empty run of word characters (the regex `\w+`;
greedy `takeWhile` coincides with the regex here because `\w` matches none
of the patterns' delimiter characters, so no backtracking can occur). -/
def takeWord (l : List Char) : Option (List Char × List Char) :=
  let w := l.takeWhile isWordChar
  if w.isEmpty then none else some (w, l.dropWhile isWordChar)

/-- Attempt to match the regex `∀ (\w+)\.\(¬(\w+)\)` at the head of the
character list.  On success returns the two capture groups and the
remainder after the match. -/
def matchNegAt (l : List Char) : Option (List Char × List Char × List Char) := do
  let l1 ← expectChar '∀' l
  let l2 ← expectChar ' ' l1
  let (w1, l3) ← takeWord l2
  let l4 ← expectChar '.' l3
  let l5 ← expectChar '(' l4
  let l6 ← expectChar '¬' l5
  let (w2, l7) ← takeWord l6
  let l8 ← expectChar ')' l7
  return (w1, w2, l8)

/-- Attempt to match the regex `∀ (\w+)\.(\w+)` at the head of the
character list. -/
def matchAllAt (l : List Char) : Option (List Char × List Char × List Char) := do
  let l1 ← expectChar '∀' l
  let l2 ← expectChar ' ' l1
  let (w1, l3) ← takeWord l2
  let l4 ← expectChar '.' l3
  let (w2, l5) ← takeWord l4
  return (w1, w2, l5)

theorem expectChar_length {c : Char} {l l' : List Char}
    (h : expectChar c l = some l') : l'.length < l.length := by
  match l with
  | [] => simp [expectChar] at h
  | x :: xs =>
    simp only [expectChar] at h
    split at h
    · simp at h
      subst h
      simp
    · simp at h

theorem takeWord_length {l w l' : List Char}
    (h : takeWord l = some (w, l')) : l'.length ≤ l.length := by
  simp only [takeWord] at h
  split at h
  · simp at h
  · simp at h
    have : l' = l.dropWhile isWordChar := h.2.symm
    subst this
    exact (l.dropWhile_sublist isWordChar).length_le

theorem matchNegAt_length {l w1 w2 r : List Char}
    (h : matchNegAt l = some (w1, w2, r)) : r.length < l.length := by
  simp only [matchNegAt, bind, Option.bind_eq_some, pure, Option.some.injEq,
    Prod.mk.injEq] at h
  obtain ⟨l1, h1, l2, h2, ⟨a1, l3⟩, h3, l4, h4, l5, h5, l6, h6, ⟨a2, l7⟩, h7, l8, h8,
    rfl, rfl, rfl⟩ := h
  have e1 := expectChar_length h1
  have e2 := expectChar_length h2
  have e3 : l3.length ≤ l2.length := takeWord_length h3
  have e4 : l4.length < l3.length := expectChar_length h4
  have e5 := expectChar_length h5
  have e6 := expectChar_length h6
  have e7 : l7.length ≤ l6.length := takeWord_length h7
  have e8 : l8.length < l7.length := expectChar_length h8
  omega

theorem matchAllAt_length {l w1 w2 r : List Char}
    (h : matchAllAt l = some (w1, w2, r)) : r.length < l.length := by
  simp only [matchAllAt, bind, Option.bind_eq_some, pure, Option.some.injEq,
    Prod.mk.injEq] at h
  obtain ⟨l1, h1, l2, h2, ⟨a1, l3⟩, h3, l4, h4, ⟨a2, l5⟩, h5, rfl, rfl, rfl⟩ := h
  have e1 := expectChar_length h1
  have e2 := expectChar_length h2
  have e3 : l3.length ≤ l2.length := takeWord_length h3
  have e4 : l4.length < l3.length := expectChar_length h4
  have e5 : l5.length ≤ l4.length := takeWord_length h5
  show l5.length < l.length
  omega

/-- One `re.sub` pass for `pattern_negated = r'∀ (\w+)\.\(¬(\w+)\)'` with
`replacement_negated = r'∃ \1.\2'` (`transform_forall_to_exists`,
`src/ontolearn/semantic_caching.py` lines 419-428): scan left to right,
replace each non-overlapping match, copy unmatched characters. -/
def subNeg (l : List Char) : List Char :=
  match h : matchNegAt l with
  | some (w1, w2, r) => '∃' :: ' ' :: (w1 ++ '.' :: (w2 ++ subNeg r))
  | none =>
    match l with
    | [] => []
    | c :: cs => c :: subNeg cs
termination_by l.length
decreasing_by
  · exact matchNegAt_length h
  · simp

/-- One `re.sub` pass for `pattern_non_negated = r'∀ (\w+)\.(\w+)'` with
`replacement_non_negated = r'∃ \1.(¬\2)'`. -/
def subAll (l : List Char) : List Char :=
  match h : matchAllAt l with
  | some (w1, w2, r) => '∃' :: ' ' :: (w1 ++ '.' :: '(' :: '¬' :: (w2 ++ ')' :: subAll r))
  | none =>
    match l with
    | [] => []
    | c :: cs => c :: subAll cs
termination_by l.length
decreasing_by
  · exact matchAllAt_length h
  · simp

/-- Embeds `transform_forall_to_exists`
(`src/ontolearn/semantic_caching.py`, lines 419-428): the negated pattern
is substituted first, then the non-negated pattern on the result. -/
def transform_forall_to_exists (l : List Char) : List Char :=
  subAll (subNeg l)

/-- The class-expression shapes involved in the universal-restriction
branch of the caching wrapper. -/
inductive DLExpr
  | cls (name : List Char)
  | objectComplementOf (e : DLExpr)
  | objectSomeValuesFrom (r : List Char) (filler : DLExpr)
  | objectAllValuesFrom (r : List Char) (filler : DLExpr)
deriving DecidableEq, Repr

/-- The DL rendering `owl_expression_to_dl` of the owlapy library for the
shapes above: a named class renders as its name, `¬` in front of a named
class, and quantifiers as `∀ r.C` / `∃ r.C` with parentheses around a
non-atomic filler (e.g. `∀ r.(¬A)`). -/
def toDL : DLExpr → List Char
  | .cls n => n
  | .objectComplementOf (.cls n) => '¬' :: n
  | .objectComplementOf e => '¬' :: '(' :: (toDL e ++ [')'])
  | .objectSomeValuesFrom r (.cls n) => '∃' :: ' ' :: (r ++ '.' :: n)
  | .objectSomeValuesFrom r f => '∃' :: ' ' :: (r ++ '.' :: '(' :: (toDL f ++ [')']))
  | .objectAllValuesFrom r (.cls n) => '∀' :: ' ' :: (r ++ '.' :: n)
  | .objectAllValuesFrom r f => '∀' :: ' ' :: (r ++ '.' :: '(' :: (toDL f ++ [')']))

/-- Embeds the `OWLObjectAllValuesFrom` branch of `semantic_caching_size`'s
`wrapper` (`src/ontolearn/semantic_caching.py`, lines 406-410): render the
expression, rewrite it with `transform_forall_to_exists`, look the result
up in the cache (`retrieve_from_cache` is `cache.get` plus hit/miss
counters, which do not affect the returned set), and answer
`All_individuals - cached` on a hit or fall back to the underlying
retrieval function's result `funcResult` on a miss. -/
def allValuesFromBranch {ι : Type} [DecidableEq ι]
    (cacheGet : List Char → Option (Finset ι))
    (All_individuals funcResult : Finset ι) (e : DLExpr) : Finset ι :=
  match cacheGet (transform_forall_to_exists (toDL e)) with
  | some cached => All_individuals \ cached
  | none => funcResult

end SemanticCaching

namespace TripleStoreM

/-- One SPARQL JSON binding cell `b[v]` as read by `unwrap`
(`src/ontolearn/triple_store.py`): its `type` tag plus `value` (and, for
literals, the optional `datatype`); `otherType` covers any other `type`
tag (which `unwrap` answers with `NotImplementedError`). -/
inductive SparqlBinding
  | uri (value : String)
  | bnode (label : String)
  | literal (value : String) (datatype : Option String)
  | otherType (tag : String) (value : String)
deriving DecidableEq, Repr

/-- A value produced by `unwrap`: `IRI.create(value)`, or
`OWLLiteral(value, OWLDatatype(IRI.create(datatype)))`. -/
inductive UnwrapVal
  | iri (s : String)
  | typedLiteral (value : String) (datatype : String)
deriving DecidableEq, Repr

/-- One iteration of the inner `for v in vars_` loop of `unwrap`
(`src/ontolearn/triple_store.py`, lines 142-167): dispatch on the binding's
`type` tag, appending to the accumulated `val` list. -/
def rowStep (acc : List UnwrapVal) (b : SparqlBinding) : Except String (List UnwrapVal) :=
  match b with
  | .uri v => .ok (acc ++ [UnwrapVal.iri v])
  | .bnode _ => .ok acc
  | .literal v (some dt) => .ok (acc ++ [UnwrapVal.typedLiteral v dt])
  | .literal _ Option.none => .ok acc
  | .otherType tag _ =>
    .error ("NotImplementedError: Seems like this kind of data is not handled: " ++ tag)

/-- The inner `for v in vars_` loop of `unwrap` accumulating `val` for one
result row (`row` lists `b[v]` in `head.vars` order, every variable
present, mirroring the subscript access `b[v]`). -/
def rowVals (row : List SparqlBinding) : Except String (List UnwrapVal) :=
  row.foldlM rowStep []

/-- The per-row tail of `unwrap`: `yield val.pop()` when exactly one value
was collected, `yield None` otherwise. -/
def unwrapRow (row : List SparqlBinding) : Except String (Option UnwrapVal) := do
  let val ← rowVals row
  match val with
  | [v] => return some v
  | _ => return Option.none

/-- Embeds `unwrap` over the rows of `results.bindings`. -/
def unwrap (rows : List (List SparqlBinding)) :
    Except String (List (Option UnwrapVal)) :=
  rows.mapM unwrapRow

/-- The expected return types dispatched on by
`send_http_request_to_ts_and_fetch_results`. -/
inductive ReturnType
  | owlClass
  | owlNamedIndividual
  | owlObjectProperty
  | owlDataProperty
  | owlLiteral
deriving DecidableEq, Repr

/-- An element yielded to the caller of
`send_http_request_to_ts_and_fetch_results`: for `OWLLiteral` the raw
output of `unwrap` is passed through unchanged (`yield from unwrap(...)`),
otherwise each non-`None` output is wrapped by the `return_type`
constructor. -/
inductive FetchedVal
  | raw (v : Option UnwrapVal)
  | entity (rt : ReturnType) (v : UnwrapVal)
deriving DecidableEq, Repr

/-- Embeds the result-processing tail of
`send_http_request_to_ts_and_fetch_results`
(`src/ontolearn/triple_store.py`, lines 107-139): `yield from unwrap(response)`
when the expected type is `OWLLiteral`, else
`[return_type(i) for i in unwrap(response) if i is not None]`. -/
def fetchResults (rt : ReturnType) (rows : List (List SparqlBinding)) :
    Except String (List FetchedVal) := do
  let us ← unwrap rows
  if rt = .owlLiteral then
    return us.map FetchedVal.raw
  else
    return (us.filterMap id).map (FetchedVal.entity rt)

/-- The spec's declarative binding-to-value mapping (§4.2): `uri` maps to
an IRI-backed value, `literal` with a `datatype` to a literal-plus-datatype
pair, `literal` without a `datatype` and `bnode` to nothing.  Stated
separately from the embedded loop so the loop can be proved to refine it. -/
def bindingValueSpec : SparqlBinding → Option UnwrapVal
  | .uri v => some (.iri v)
  | .literal v (some dt) => some (.typedLiteral v dt)
  | _ => Option.none

/-- Does a binding carry an unhandled `type` tag (the arm on which
`unwrap` raises `NotImplementedError`)? -/
def isOther : SparqlBinding → Bool
  | .otherType _ _ => true
  | _ => false

/-- The per-row verdict: the row's single value when exactly one variable
column contributes a value under `bindingValueSpec`, `none` otherwise. -/
def rowVerdict (row : List SparqlBinding) : Option UnwrapVal :=
  match row.filterMap bindingValueSpec with
  | [v] => some v
  | _ => Option.none

end TripleStoreM

/-!
## Theorems

One theorem per claim (C1-C10), preceded by shared helper lemmas.
-/

section SharedLemmas

theorem except_foldlM_rowStep (row : List TripleStoreM.SparqlBinding)
    (h : ∀ b ∈ row, TripleStoreM.isOther b = false) :
    ∀ acc, row.foldlM TripleStoreM.rowStep acc =
      .ok (acc ++ row.filterMap TripleStoreM.bindingValueSpec) := by
  induction row with
  | nil =>
    intro acc
    simp only [List.foldlM_nil, List.filterMap_nil, List.append_nil]
    rfl
  | cons b bs ih =>
    intro acc
    have hb : TripleStoreM.isOther b = false := h b (List.mem_cons_self b bs)
    have hbs : ∀ x ∈ bs, TripleStoreM.isOther x = false :=
      fun x hx => h x (List.mem_cons_of_mem b hx)
    cases b with
    | uri v =>
      simp only [List.foldlM_cons, TripleStoreM.rowStep]
      rw [show ((Except.ok (acc ++ [TripleStoreM.UnwrapVal.iri v]) :
            Except String (List TripleStoreM.UnwrapVal)) >>= fun acc2 =>
            bs.foldlM TripleStoreM.rowStep acc2) =
          bs.foldlM TripleStoreM.rowStep (acc ++ [TripleStoreM.UnwrapVal.iri v]) from rfl]
      rw [ih hbs]
      simp [TripleStoreM.bindingValueSpec]
    | bnode lbl =>
      simp only [List.foldlM_cons, TripleStoreM.rowStep]
      rw [show ((Except.ok acc : Except String (List TripleStoreM.UnwrapVal)) >>= fun acc2 =>
            bs.foldlM TripleStoreM.rowStep acc2) = bs.foldlM TripleStoreM.rowStep acc from rfl]
      rw [ih hbs]
      simp [TripleStoreM.bindingValueSpec]
    | literal v dt =>
      cases dt with
      | none =>
        simp only [List.foldlM_cons, TripleStoreM.rowStep]
        rw [show ((Except.ok acc : Except String (List TripleStoreM.UnwrapVal)) >>= fun acc2 =>
              bs.foldlM TripleStoreM.rowStep acc2) = bs.foldlM TripleStoreM.rowStep acc from rfl]
        rw [ih hbs]
        simp [TripleStoreM.bindingValueSpec]
      | some d =>
        simp only [List.foldlM_cons, TripleStoreM.rowStep]
        rw [show ((Except.ok (acc ++ [TripleStoreM.UnwrapVal.typedLiteral v d]) :
              Except String (List TripleStoreM.UnwrapVal)) >>= fun acc2 =>
              bs.foldlM TripleStoreM.rowStep acc2) =
            bs.foldlM TripleStoreM.rowStep (acc ++ [TripleStoreM.UnwrapVal.typedLiteral v d]) from rfl]
        rw [ih hbs]
        simp [TripleStoreM.bindingValueSpec]
    | otherType tag v => simp [TripleStoreM.isOther] at hb

theorem rowVals_eq_spec (row : List TripleStoreM.SparqlBinding)
    (h : ∀ b ∈ row, TripleStoreM.isOther b = false) :
    TripleStoreM.rowVals row = .ok (row.filterMap TripleStoreM.bindingValueSpec) := by
  simpa using except_foldlM_rowStep row h []

theorem unwrapRow_eq_verdict (row : List TripleStoreM.SparqlBinding)
    (h : ∀ b ∈ row, TripleStoreM.isOther b = false) :
    TripleStoreM.unwrapRow row = .ok (TripleStoreM.rowVerdict row) := by
  unfold TripleStoreM.unwrapRow TripleStoreM.rowVerdict
  rw [rowVals_eq_spec row h]
  cases hval : row.filterMap TripleStoreM.bindingValueSpec with
  | nil => rfl
  | cons v vs => cases vs <;> rfl

theorem unwrap_eq_verdicts (rows : List (List TripleStoreM.SparqlBinding))
    (h : ∀ row ∈ rows, ∀ b ∈ row, TripleStoreM.isOther b = false) :
    TripleStoreM.unwrap rows = .ok (rows.map TripleStoreM.rowVerdict) := by
  induction rows with
  | nil => rfl
  | cons row rs ih =>
    have h1 := h row (List.mem_cons_self row rs)
    have h2 : ∀ r ∈ rs, ∀ b ∈ r, TripleStoreM.isOther b = false :=
      fun r hr => h r (List.mem_cons_of_mem row hr)
    unfold TripleStoreM.unwrap at ih ⊢
    rw [List.mapM_cons, unwrapRow_eq_verdict row h1]
    rw [show ∀ (x : Option TripleStoreM.UnwrapVal)
          (f : Option TripleStoreM.UnwrapVal →
            Except String (List (Option TripleStoreM.UnwrapVal))),
          ((Except.ok x : Except String (Option TripleStoreM.UnwrapVal)) >>= f) = f x
        from fun _ _ => rfl]
    rw [ih h2]
    rfl

end SharedLemmas

/-- C1 (code bug): with configured capacity 1 and the FIFO strategy, two
`put` calls with distinct keys leave 2 entries in the cache — `_evict`
only fires when the size already strictly exceeds `cache_size` *before*
the insertion, so the cache stabilizes at `cache_size + 1` entries,
contradicting the capacity invariant `len(cache) ≤ cache_size` stated by
the spec (and by the class's own `is_full`/docstrings). -/
theorem C1_cache_put_exceeds_capacity :
    ((SemanticCaching.put (fun l => l.head?) 0
        (SemanticCaching.init ℕ 1 .FIFO 10) "a" 0).bind
      (fun s => SemanticCaching.put (fun l => l.head?) 1 s "b" 1)).map
        (fun s => (s.cache.length, s.cache_size)) = .ok (2, 1) := by
  rfl

/-- C10: `CacheWithEviction.is_full` reads `self.max_size`, but the only
integer attributes ever assigned on the instance are `cache_size` and
`random_seed` (the constructor assigns exactly the six names in
`cacheAttributeNames`, `max_size` not among them), so `is_full` raises
`AttributeError` on every instance. -/
theorem C10_is_full_attribute_error {V : Type} (s : SemanticCaching.CacheWithEviction V) :
    SemanticCaching.is_full s =
      .error "AttributeError: CacheWithEviction object has no attribute max_size"
    ∧ "max_size" ∉ SemanticCaching.cacheAttributeNames
    ∧ "cache_size" ∈ SemanticCaching.cacheAttributeNames :=
  ⟨rfl, by decide, by decide⟩

/-- C3 counterexample: calling the placeholder `Drill.fit` (and each of the
other five stub overrides) does *not* raise: each body is the bare
expression `ValueError('...')` without `raise`, so the exception object is
constructed, discarded, and the call returns `None` normally. -/
theorem C3_stubs_do_not_raise_counterexample :
    DrillM.fit = Except.ok DrillM.PyValue.none ∧
    DrillM.best_hypotheses = Except.ok DrillM.PyValue.none ∧
    DrillM.clean = Except.ok DrillM.PyValue.none ∧
    DrillM.downward_refinement = Except.ok DrillM.PyValue.none ∧
    DrillM.show_search_tree = Except.ok DrillM.PyValue.none ∧
    DrillM.terminate_training = Except.ok DrillM.PyValue.none :=
  ⟨rfl, rfl, rfl, rfl, rfl, rfl⟩

/-- C3 (amended): the six stub overrides `best_hypotheses`, `clean`,
`downward_refinement`, `fit`, `show_search_tree`, `terminate_training` on
`Drill` each evaluate `ValueError(...)` without raising it and return
`None` immediately; `next_node_to_expand` is not a stub — it delegates to
the search tree's `get_most_promising`, which fails only on an empty
search tree and otherwise returns the index resolution of the popped
best-priority entry. -/
theorem C3_drill_stub_behaviour (t : DrillM.DrillSearchTree) :
    (DrillM.fit = Except.ok DrillM.PyValue.none
      ∧ DrillM.best_hypotheses = Except.ok DrillM.PyValue.none
      ∧ DrillM.clean = Except.ok DrillM.PyValue.none
      ∧ DrillM.downward_refinement = Except.ok DrillM.PyValue.none
      ∧ DrillM.show_search_tree = Except.ok DrillM.PyValue.none
      ∧ DrillM.terminate_training = Except.ok DrillM.PyValue.none)
    ∧ DrillM.next_node_to_expand t = DrillM.get_most_promising t
    ∧ (t.items_in_queue = [] →
        DrillM.next_node_to_expand t = Except.error (.exc "AssertionError"
          "Search tree is empty. Ensure that there is at least one owl:Class or owl:ObjectProperty definitions"))
    ∧ (∀ e rest node, DrillM.popMinEntry t.items_in_queue = some (e, rest) →
        t.nodes.lookup e.2.2 = some node →
        DrillM.next_node_to_expand t = Except.ok (node, { t with items_in_queue := rest })) := by
  refine ⟨⟨rfl, rfl, rfl, rfl, rfl, rfl⟩, rfl, ?_, ?_⟩
  · intro he
    unfold DrillM.next_node_to_expand DrillM.get_most_promising
    rw [he]
    rfl
  · intro e rest node hpop hlook
    unfold DrillM.next_node_to_expand DrillM.get_most_promising
    rw [hpop]
    dsimp only
    rw [hlook]

/-- C3 witness: on a one-entry search tree, `next_node_to_expand` returns
the indexed state (rather than failing). -/
theorem C3_drill_stub_behaviour_witness :
    DrillM.next_node_to_expand ⟨[((-1 : ℚ), 3, "C")], [("C", ⟨"C", 1, 1⟩)]⟩ =
      Except.ok ((⟨"C", 1, 1⟩ : DrillM.RLState),
        (⟨[], [("C", ⟨"C", 1, 1⟩)]⟩ : DrillM.DrillSearchTree)) := by
  exact (C3_drill_stub_behaviour _).2.2.2 ((-1 : ℚ), 3, "C") [] ⟨"C", 1, 1⟩ rfl rfl

/-- C8 counterexample: a row binding two non-absent variable columns is
*not* dropped for the `OWLLiteral` expected return type — `unwrap` yields
the placeholder `None` for it, and the `OWLLiteral` branch of
`send_http_request_to_ts_and_fetch_results` (`yield from unwrap(...)`)
passes that `None` through to the caller; only the non-`OWLLiteral` branch
filters it out. -/
theorem C8_owlliteral_none_counterexample :
    TripleStoreM.fetchResults .owlLiteral [[.uri "a", .uri "b"]] =
      .ok [TripleStoreM.FetchedVal.raw Option.none]
    ∧ TripleStoreM.fetchResults .owlClass [[.uri "a", .uri "b"]] = .ok [] :=
  ⟨rfl, rfl⟩

/-- C8 (amended): for rows whose bindings all carry handled `type` tags,
`unwrap` yields exactly one element per row: the row's single value when
exactly one variable column contributes one under the binding-to-value
mapping (`uri` → IRI entity; `literal` with `datatype` → literal-datatype
pair; `bnode` and `literal` without `datatype` contribute nothing), and the
placeholder `None` otherwise (zero or several contributing columns).  For
every expected return type other than `OWLLiteral` the `None` placeholders
are filtered out (such rows are dropped) and the remaining values are
wrapped by the return-type constructor; for `OWLLiteral` the raw `unwrap`
stream — `None` placeholders included — is yielded to the caller. -/
theorem C8_unwrap_binding_mapping (rt : TripleStoreM.ReturnType)
    (rows : List (List TripleStoreM.SparqlBinding))
    (h : ∀ row ∈ rows, ∀ b ∈ row, TripleStoreM.isOther b = false) :
    TripleStoreM.unwrap rows = .ok (rows.map TripleStoreM.rowVerdict)
    ∧ (rt ≠ .owlLiteral →
        TripleStoreM.fetchResults rt rows =
          .ok (((rows.map TripleStoreM.rowVerdict).filterMap id).map
            (TripleStoreM.FetchedVal.entity rt)))
    ∧ TripleStoreM.fetchResults .owlLiteral rows =
        .ok ((rows.map TripleStoreM.rowVerdict).map TripleStoreM.FetchedVal.raw) := by
  have hu := unwrap_eq_verdicts rows h
  refine ⟨hu, ?_, ?_⟩
  · intro hrt
    unfold TripleStoreM.fetchResults
    rw [hu]
    simp [hrt]
  · unfold TripleStoreM.fetchResults
    rw [hu]
    rfl

/-- C8 witness: a concrete batch exercising every binding shape — a `uri`
row, a typed-literal row, an untyped-literal row, a `bnode` row and a
two-column row — satisfies the theorem's hypothesis, and the theorem's
conclusions hold for it. -/
theorem C8_unwrap_binding_mapping_witness :
    (∀ row ∈ [[TripleStoreM.SparqlBinding.uri "a"],
        [TripleStoreM.SparqlBinding.literal "5" (some "int")],
        [TripleStoreM.SparqlBinding.literal "x" Option.none],
        [TripleStoreM.SparqlBinding.bnode "b"],
        [TripleStoreM.SparqlBinding.uri "a", TripleStoreM.SparqlBinding.uri "b"]],
      ∀ b ∈ row, TripleStoreM.isOther b = false)
    ∧ (TripleStoreM.unwrap [[TripleStoreM.SparqlBinding.uri "a"],
        [TripleStoreM.SparqlBinding.literal "5" (some "int")],
        [TripleStoreM.SparqlBinding.literal "x" Option.none],
        [TripleStoreM.SparqlBinding.bnode "b"],
        [TripleStoreM.SparqlBinding.uri "a", TripleStoreM.SparqlBinding.uri "b"]] =
        .ok ([[TripleStoreM.SparqlBinding.uri "a"],
        [TripleStoreM.SparqlBinding.literal "5" (some "int")],
        [TripleStoreM.SparqlBinding.literal "x" Option.none],
        [TripleStoreM.SparqlBinding.bnode "b"],
        [TripleStoreM.SparqlBinding.uri "a", TripleStoreM.SparqlBinding.uri "b"]].map
          TripleStoreM.rowVerdict)
      ∧ (TripleStoreM.ReturnType.owlClass ≠ .owlLiteral →
          TripleStoreM.fetchResults .owlClass [[TripleStoreM.SparqlBinding.uri "a"],
            [TripleStoreM.SparqlBinding.literal "5" (some "int")],
            [TripleStoreM.SparqlBinding.literal "x" Option.none],
            [TripleStoreM.SparqlBinding.bnode "b"],
            [TripleStoreM.SparqlBinding.uri "a", TripleStoreM.SparqlBinding.uri "b"]] =
            .ok ((([[TripleStoreM.SparqlBinding.uri "a"],
              [TripleStoreM.SparqlBinding.literal "5" (some "int")],
              [TripleStoreM.SparqlBinding.literal "x" Option.none],
              [TripleStoreM.SparqlBinding.bnode "b"],
              [TripleStoreM.SparqlBinding.uri "a", TripleStoreM.SparqlBinding.uri "b"]].map
                TripleStoreM.rowVerdict).filterMap id).map
              (TripleStoreM.FetchedVal.entity .owlClass)))
      ∧ TripleStoreM.fetchResults .owlLiteral [[TripleStoreM.SparqlBinding.uri "a"],
          [TripleStoreM.SparqlBinding.literal "5" (some "int")],
          [TripleStoreM.SparqlBinding.literal "x" Option.none],
          [TripleStoreM.SparqlBinding.bnode "b"],
          [TripleStoreM.SparqlBinding.uri "a", TripleStoreM.SparqlBinding.uri "b"]] =
          .ok (([[TripleStoreM.SparqlBinding.uri "a"],
            [TripleStoreM.SparqlBinding.literal "5" (some "int")],
            [TripleStoreM.SparqlBinding.literal "x" Option.none],
            [TripleStoreM.SparqlBinding.bnode "b"],
            [TripleStoreM.SparqlBinding.uri "a", TripleStoreM.SparqlBinding.uri "b"]].map
              TripleStoreM.rowVerdict).map TripleStoreM.FetchedVal.raw)) :=
  ⟨by decide, C8_unwrap_binding_mapping .owlClass _ (by decide)⟩

/-- C9: `compute_f1_score` returns exactly 0 whenever the true-positive
count is zero — whichever of the three zero paths is taken (zero `tp+fn`
denominator, zero `tp+fp` denominator, or zero precision/recall) — in
particular it is total (never raises) on an empty individuals set; and
with a positive true-positive count it returns
`2·precision·recall/(precision+recall)`. -/
theorem C9_compute_f1_score {ι : Type} [DecidableEq ι]
    (individuals pos neg : Finset ι) :
    ((pos ∩ individuals).card = 0 →
      StaticFuncs.compute_f1_score individuals pos neg = 0)
    ∧ (individuals = ∅ → StaticFuncs.compute_f1_score individuals pos neg = 0)
    ∧ (0 < (pos ∩ individuals).card →
        StaticFuncs.compute_f1_score individuals pos neg =
          2 * ((StaticFuncs.precisionOf individuals pos neg *
                StaticFuncs.recallOf individuals pos neg) /
              (StaticFuncs.precisionOf individuals pos neg +
                StaticFuncs.recallOf individuals pos neg))) := by
  have hzero : (pos ∩ individuals).card = 0 →
      StaticFuncs.compute_f1_score individuals pos neg = 0 := by
    intro h
    unfold StaticFuncs.compute_f1_score
    simp only [h, Nat.cast_zero, zero_add, zero_div]
    split_ifs with h1 h2 h3
    · rfl
    · rfl
    · rfl
    · exact absurd (Or.inl trivial) h3
  refine ⟨hzero, fun he => hzero (by simp [he]), ?_⟩
  intro h
  have htpq : (0 : ℚ) < ((pos ∩ individuals).card : ℚ) := by exact_mod_cast h
  have hd1 : (0 : ℚ) < ((pos ∩ individuals).card : ℚ) + ((pos \ individuals).card : ℚ) := by
    have : (0 : ℚ) ≤ ((pos \ individuals).card : ℚ) := by positivity
    linarith
  have hd2 : (0 : ℚ) < ((pos ∩ individuals).card : ℚ) + ((neg ∩ individuals).card : ℚ) := by
    have : (0 : ℚ) ≤ ((neg ∩ individuals).card : ℚ) := by positivity
    linarith
  unfold StaticFuncs.compute_f1_score
  rw [if_neg (by omega), if_neg (by omega), if_neg ?_]
  · rfl
  · push_neg
    constructor
    · exact div_ne_zero (ne_of_gt htpq) (ne_of_gt hd2)
    · exact div_ne_zero (ne_of_gt htpq) (ne_of_gt hd1)

/-- C9 witness: with individuals `{0}`, positives `{0}` and negatives
`{1}` the true-positive count is 1, precision and recall are both 1, and
`compute_f1_score` returns `2·(1·1)/(1+1)`. -/
theorem C9_compute_f1_score_witness :
    0 < (({0} : Finset ℕ) ∩ {0}).card
    ∧ StaticFuncs.compute_f1_score ({0} : Finset ℕ) {0} {1} =
        2 * ((StaticFuncs.precisionOf ({0} : Finset ℕ) {0} {1} *
              StaticFuncs.recallOf ({0} : Finset ℕ) {0} {1}) /
            (StaticFuncs.precisionOf ({0} : Finset ℕ) {0} {1} +
              StaticFuncs.recallOf ({0} : Finset ℕ) {0} {1})) :=
  ⟨by decide, (C9_compute_f1_score ({0} : Finset ℕ) {0} {1}).2.2 (by decide)⟩

/-- C2 counterexample: the encoder enforces no disjointness — the learning
problem with positives `{0}` and negatives `{0}` over the universe
`{0, 1, 2}` encodes successfully (all cardinality assertions pass), and its
encoded positive and negative sets are both `{0}`, which are not
disjoint. -/
theorem C2_disjointness_counterexample :
    KB.encode_learning_problem 1 ({0, 1, 2} : Finset ℕ) (fun _ _ => ∅)
        ⟨{0}, {0}, Option.none⟩ =
      .ok ⟨{0}, {0}, {0, 1, 2}, {1, 2}⟩
    ∧ ¬ Disjoint ({0} : Finset ℕ) ({0} : Finset ℕ) := by
  constructor
  · decide
  · decide

/-- C2 (amended): `encode_learning_problem` does not check or enforce
disjointness of the encoded positive and negative sets (an overlapping
pair encodes successfully, see the counterexample); what does hold is the
sampling clause: whenever the supplied negative set is empty, the encoded
negatives are the output of `random.sample` over the whole universe
`kb_all` — positives included — requested with size equal to the positive
set, so (by `random.sample`'s contract, stated here as the hypothesis
`hs`) they are a subset of the universe of cardinality `|kb_pos|`; when
negatives are supplied they are taken as given. -/
theorem C2_encode_negatives_sampling {ι : Type} [DecidableEq ι]
    (hierarchySize : ℕ) (allIndividuals : Finset ι)
    (sample : Finset ι → ℕ → Finset ι) (lp : KB.PosNegLPStandard ι)
    (e : KB.EncodedPosNegLPStandard ι)
    (henc : KB.encode_learning_problem hierarchySize allIndividuals sample lp = .ok e)
    (hs : sample (KB.universeOf allIndividuals lp) lp.pos.card ⊆
            KB.universeOf allIndividuals lp
          ∧ (sample (KB.universeOf allIndividuals lp) lp.pos.card).card = lp.pos.card) :
    e.kb_pos = lp.pos
    ∧ e.kb_all = KB.universeOf allIndividuals lp
    ∧ (lp.neg = ∅ →
        e.kb_neg = sample (KB.universeOf allIndividuals lp) lp.pos.card
        ∧ e.kb_neg ⊆ e.kb_all ∧ e.kb_neg.card = e.kb_pos.card)
    ∧ (lp.neg ≠ ∅ → e.kb_neg = lp.neg) := by
  simp only [KB.encode_learning_problem] at henc
  by_cases h0 : hierarchySize = 0
  · rw [if_pos h0] at henc
    exact absurd henc (by simp)
  · rw [if_neg h0] at henc
    by_cases hcond : 0 < lp.pos.card
        ∧ lp.pos.card < (KB.universeOf allIndividuals lp).card
        ∧ lp.neg.card < (KB.universeOf allIndividuals lp).card
    · rw [if_pos hcond] at henc
      simp only [Except.ok.injEq] at henc
      subst henc
      refine ⟨rfl, rfl, ?_, ?_⟩
      · intro hneg
        have hc : lp.neg.card = 0 := by simp [hneg]
        simp only [hc, if_pos rfl]
        exact ⟨rfl, hs.1, hs.2⟩
      · intro hneg
        have hc : ¬ lp.neg.card = 0 := by simpa [Finset.card_eq_zero] using hneg
        simp only [if_neg hc]
    · rw [if_neg hcond] at henc
      exact absurd henc (by simp)

/-- C2 witness: a concrete learning problem with empty negatives over the
universe `{0, 1, 2}`, with a concrete sampler (constantly `{0}`)
satisfying the `random.sample` contract at the sampled call: the encoding
succeeds and the theorem's conclusions hold. -/
theorem C2_encode_negatives_sampling_witness :
    (KB.encode_learning_problem 1 ({0, 1, 2} : Finset ℕ)
        (fun _ _ => ({0} : Finset ℕ)) ⟨{0}, ∅, Option.none⟩ =
      .ok ⟨{0}, {0}, {0, 1, 2}, {1, 2}⟩)
    ∧ (({0} : Finset ℕ) = {0}
      ∧ ({0, 1, 2} : Finset ℕ) = KB.universeOf {0, 1, 2} ⟨{0}, ∅, Option.none⟩
      ∧ ((∅ : Finset ℕ) = ∅ →
          ({0} : Finset ℕ) = {0}
          ∧ ({0} : Finset ℕ) ⊆ {0, 1, 2} ∧ ({0} : Finset ℕ).card = ({0} : Finset ℕ).card)
      ∧ ((∅ : Finset ℕ) ≠ ∅ → ({0} : Finset ℕ) = ∅)) := by
  refine ⟨by decide, ?_⟩
  exact C2_encode_negatives_sampling 1 {0, 1, 2}
    (fun _ _ => ({0} : Finset ℕ)) ⟨{0}, ∅, Option.none⟩
    ⟨{0}, {0}, {0, 1, 2}, {1, 2}⟩ (by decide) (by decide)

/-- C6: for the standard positive/negative learning problem,
`encode_learning_problem` fails with an assertion error whenever the
cardinality precondition `0 < |pos| < |kb_all|` and `|neg| < |kb_all|` is
violated (the only other failure source being the prior empty-hierarchy
assertion), and every successful encoding satisfies
`kb_diff = kb_all \ (kb_pos ∪ kb_neg)` with `kb_all` the chosen universe
and `kb_pos` the supplied positives. -/
theorem C6_encode_learning_problem {ι : Type} [DecidableEq ι]
    (hierarchySize : ℕ) (allIndividuals : Finset ι)
    (sample : Finset ι → ℕ → Finset ι) (lp : KB.PosNegLPStandard ι) :
    (¬ (0 < lp.pos.card ∧ lp.pos.card < (KB.universeOf allIndividuals lp).card
          ∧ lp.neg.card < (KB.universeOf allIndividuals lp).card) →
      KB.encode_learning_problem hierarchySize allIndividuals sample lp =
          .error "AssertionError: 0 < len(lp.pos) < len(kb_all) and len(kb_all) > len(lp.neg)"
        ∨ KB.encode_learning_problem hierarchySize allIndividuals sample lp =
          .error "AssertionError: empty class hierarchy")
    ∧ (∀ e, KB.encode_learning_problem hierarchySize allIndividuals sample lp = .ok e →
        e.kb_all = KB.universeOf allIndividuals lp
        ∧ e.kb_pos = lp.pos
        ∧ e.kb_diff = e.kb_all \ (e.kb_pos ∪ e.kb_neg)) := by
  constructor
  · intro hbad
    simp only [KB.encode_learning_problem]
    by_cases h0 : hierarchySize = 0
    · rw [if_pos h0]
      exact Or.inr rfl
    · rw [if_neg h0, if_neg hbad]
      exact Or.inl rfl
  · intro e henc
    simp only [KB.encode_learning_problem] at henc
    by_cases h0 : hierarchySize = 0
    · rw [if_pos h0] at henc
      exact absurd henc (by simp)
    · rw [if_neg h0] at henc
      by_cases hcond : 0 < lp.pos.card
          ∧ lp.pos.card < (KB.universeOf allIndividuals lp).card
          ∧ lp.neg.card < (KB.universeOf allIndividuals lp).card
      · rw [if_pos hcond] at henc
        simp only [Except.ok.injEq] at henc
        subst henc
        exact ⟨rfl, rfl, rfl⟩
      · rw [if_neg hcond] at henc
        exact absurd henc (by simp)

/-- C6 witness: the empty-positives problem is rejected with the
cardinality assertion error, and the concrete problem with positives `{0}`
and negatives `{1}` over `{0, 1, 2}` encodes with
`kb_diff = {0, 1, 2} \ ({0} ∪ {1}) = {2}`. -/
theorem C6_encode_learning_problem_witness :
    (KB.encode_learning_problem 1 ({0, 1, 2} : Finset ℕ) (fun _ _ => ∅)
        ⟨∅, ∅, Option.none⟩ =
        .error "AssertionError: 0 < len(lp.pos) < len(kb_all) and len(kb_all) > len(lp.neg)"
      ∨ KB.encode_learning_problem 1 ({0, 1, 2} : Finset ℕ) (fun _ _ => ∅)
        ⟨∅, ∅, Option.none⟩ = .error "AssertionError: empty class hierarchy")
    ∧ (({0, 1, 2} : Finset ℕ) = KB.universeOf {0, 1, 2} ⟨{0}, {1}, Option.none⟩
        ∧ ({0} : Finset ℕ) = {0}
        ∧ ({2} : Finset ℕ) = ({0, 1, 2} : Finset ℕ) \ ({0} ∪ {1})) := by
  constructor
  · exact (C6_encode_learning_problem 1 {0, 1, 2} (fun _ _ => ∅)
      ⟨∅, ∅, Option.none⟩).1 (by decide)
  · exact (C6_encode_learning_problem 1 {0, 1, 2} (fun _ _ => ∅)
      ⟨{0}, {1}, Option.none⟩).2 ⟨{0}, {1}, {0, 1, 2}, {2}⟩ (by decide)

theorem find?_first {α : Type} (p : α → Bool) :
    ∀ (l : List α) (a : α), l.find? p = some a →
      ∃ i, ∃ hi : i < l.length, l.get ⟨i, hi⟩ = a
        ∧ p a = true
        ∧ ∀ j (hj : j < i), p (l.get ⟨j, by omega⟩) = false := by
  intro l
  induction l with
  | nil => intro a h; simp at h
  | cons b t ih =>
    intro a h
    cases hpb : p b with
    | true =>
      rw [List.find?_cons_of_pos _ hpb] at h
      simp only [Option.some.injEq] at h
      subst h
      exact ⟨0, by simp, rfl, hpb, fun j hj => absurd hj (Nat.not_lt_zero j)⟩
    | false =>
      rw [List.find?_cons_of_neg _ (by simp [hpb])] at h
      obtain ⟨i, hi, hget, hpa, hfirst⟩ := ih a h
      refine ⟨i + 1, by simpa using Nat.succ_lt_succ hi, ?_, hpa, ?_⟩
      · simpa using hget
      · intro j hj
        cases j with
        | zero => simpa using hpb
        | succ j' =>
          have := hfirst j' (by omega)
          simpa using this

theorem sorted_le_getLast {α : Type} (f : α → ℚ) :
    ∀ (l : List α) (hne : l ≠ []), l.Sorted (fun m n => f m ≤ f n) →
      ∀ n ∈ l, f n ≤ f (l.getLast hne) := by
  intro l
  induction l with
  | nil => intro hne; exact absurd rfl hne
  | cons x xs ih =>
    intro hne hs n hn
    cases xs with
    | nil =>
      rcases List.mem_singleton.mp hn with rfl
      simp [List.getLast]
    | cons y ys =>
      rw [List.getLast_cons (by simp)]
      rcases List.mem_cons.mp hn with rfl | hn'
      · have hx := (List.sorted_cons.mp hs).1
        exact hx _ (List.getLast_mem (by simp))
      · exact ih (by simp) (List.sorted_cons.mp hs).2 n hn'

/-- C4: with `best_only` false, `CELOE.next_node_to_expand` scans the open
list from the heuristically-best end (the reversal of the ascending
`SortedSet`) and returns the first node of quality < 1.0 — the returned
node sits at a reverse position all of whose predecessors have
quality ≥ 1.0 — and raises `ValueError("No Node with lesser accuracy
found")` when every node has quality ≥ 1.0; with `best_only` true it
returns the last (heuristically best) node regardless of quality: under the
queue's ascending-heuristic sortedness the returned node's heuristic
dominates the whole queue. -/
theorem C4_celoe_next_node_to_expand (best_only : Bool) (queue : List CELOE.OENode) :
    (best_only = false →
      ((∃ m ∈ queue, m.quality < 1) →
        ∃ i, ∃ hi : i < queue.reverse.length,
          CELOE.next_node_to_expand best_only queue = .ok (queue.reverse.get ⟨i, hi⟩)
          ∧ (queue.reverse.get ⟨i, hi⟩).quality < 1
          ∧ ∀ j (hj : j < i), 1 ≤ (queue.reverse.get ⟨j, by omega⟩).quality)
      ∧ ((∀ m ∈ queue, 1 ≤ m.quality) →
          CELOE.next_node_to_expand best_only queue =
            .error "No Node with lesser accuracy found"))
    ∧ (best_only = true → ∀ hne : queue ≠ [],
        CELOE.next_node_to_expand best_only queue = .ok (queue.getLast hne)
        ∧ (queue.Sorted (fun m n => m.heuristic ≤ n.heuristic) →
            ∀ m ∈ queue, m.heuristic ≤ (queue.getLast hne).heuristic)) := by
  constructor
  · intro hb
    subst hb
    constructor
    · rintro ⟨m, hm, hq⟩
      have hsome : (queue.reverse.find? (fun n => decide (n.quality < 1))).isSome := by
        rw [List.find?_isSome]
        exact ⟨m, by simpa using hm, by simpa using hq⟩
      obtain ⟨a, ha⟩ := Option.isSome_iff_exists.mp hsome
      obtain ⟨i, hi, hget, hpa, hfirst⟩ := find?_first _ _ _ ha
      refine ⟨i, hi, ?_, ?_, ?_⟩
      · unfold CELOE.next_node_to_expand
        rw [if_pos rfl, ha]
        exact congrArg Except.ok hget.symm
      · rw [hget]
        exact of_decide_eq_true hpa
      · intro j hj
        have := hfirst j hj
        have hnot : ¬ ((queue.reverse.get ⟨j, by omega⟩).quality < 1) :=
          of_decide_eq_false this
        exact le_of_not_lt hnot
    · intro hall
      unfold CELOE.next_node_to_expand
      rw [if_pos rfl]
      rw [List.find?_eq_none.mpr ?_]
      · intro x hx
        simp only [decide_eq_true_eq]
        exact not_lt.mpr (hall x (by simpa using hx))
  · intro hb hne
    subst hb
    constructor
    · unfold CELOE.next_node_to_expand
      rw [if_neg (by simp)]
      rw [List.getLast?_eq_getLast queue hne]
    · intro hsort m hm
      exact sorted_le_getLast (fun n => n.heuristic) queue hne hsort m hm

/-- C4 witness: on the two-node queue with ascending heuristics `0, 1` and
qualities `1, 0`, the `best_only = false` scan returns the reverse-position
0 node (heuristic 1, quality 0 < 1). -/
theorem C4_celoe_next_node_to_expand_witness :
    (∃ m ∈ [(⟨0, 1, 0⟩ : CELOE.OENode), ⟨1, 0, 1⟩], m.quality < 1)
    ∧ (∃ i, ∃ hi : i < ([(⟨0, 1, 0⟩ : CELOE.OENode), ⟨1, 0, 1⟩].reverse).length,
        CELOE.next_node_to_expand false [⟨0, 1, 0⟩, ⟨1, 0, 1⟩] =
          .ok (([(⟨0, 1, 0⟩ : CELOE.OENode), ⟨1, 0, 1⟩].reverse).get ⟨i, hi⟩)
        ∧ (([(⟨0, 1, 0⟩ : CELOE.OENode), ⟨1, 0, 1⟩].reverse).get ⟨i, hi⟩).quality < 1
        ∧ ∀ j (hj : j < i),
            1 ≤ (([(⟨0, 1, 0⟩ : CELOE.OENode), ⟨1, 0, 1⟩].reverse).get ⟨j, by omega⟩).quality) :=
  ⟨by decide, ((C4_celoe_next_node_to_expand false _).1 rfl).1 (by decide)⟩

theorem lookup_map_replace {α β : Type} [DecidableEq α] (k : α) (v : β) :
    ∀ (l : List (α × β)) (c' : α),
      (l.map (fun p => if p.1 = k then (k, v) else p)).lookup c' =
        if c' = k then (l.lookup k).map (fun _ => v) else l.lookup c' := by
  intro l
  induction l with
  | nil => intro c'; by_cases h : c' = k <;> simp [h]
  | cons p ps ih =>
    intro c'
    obtain ⟨a, b⟩ := p
    simp only [List.map_cons]
    by_cases hak : a = k
    · subst hak
      by_cases hc : c' = a
      · subst hc
        simp [List.lookup_cons]
      · simp [List.lookup_cons, beq_false_of_ne hc, hc, ih]
    · by_cases hc : c' = a
      · subst hc
        simp [List.lookup_cons, hak, beq_false_of_ne (Ne.symm hak)]
      · simp [List.lookup_cons, beq_false_of_ne hc, beq_false_of_ne (Ne.symm hak), hak, ih]

theorem lookup_map_adjust {α β : Type} [DecidableEq α] (k : α) (f : β → β) :
    ∀ (l : List (α × β)) (c' : α),
      (l.map (fun p => if p.1 = k then (p.1, f p.2) else p)).lookup c' =
        if c' = k then (l.lookup k).map f else l.lookup c' := by
  intro l
  induction l with
  | nil => intro c'; by_cases h : c' = k <;> simp [h]
  | cons p ps ih =>
    intro c'
    obtain ⟨a, b⟩ := p
    simp only [List.map_cons]
    by_cases hak : a = k
    · subst hak
      by_cases hc : c' = a
      · subst hc
        simp [List.lookup_cons]
      · simp [List.lookup_cons, beq_false_of_ne hc, hc, ih]
    · by_cases hc : c' = a
      · subst hc
        simp [List.lookup_cons, hak, beq_false_of_ne (Ne.symm hak)]
      · simp [List.lookup_cons, beq_false_of_ne hc, beq_false_of_ne (Ne.symm hak), hak, ih]

theorem lookup_append_assoc {α β : Type} [DecidableEq α] (a : α) :
    ∀ l1 l2 : List (α × β), (l1 ++ l2).lookup a =
      match l1.lookup a with
      | some v => some v
      | Option.none => l2.lookup a := by
  intro l1 l2
  induction l1 with
  | nil => simp
  | cons p ps ih =>
    obtain ⟨k, b⟩ := p
    by_cases hk : a = k
    · subst hk
      simp [List.lookup_cons]
    · simp [List.lookup_cons, beq_false_of_ne hk, ih]

theorem dictSet_lookup_self {α β : Type} [DecidableEq α] (l : List (α × β)) (k : α) (v : β) :
    (STPQ.dictSet l k v).lookup k = some v := by
  unfold STPQ.dictSet
  split_ifs with h
  · rw [lookup_map_replace, if_pos rfl]
    obtain ⟨w, hw⟩ := Option.isSome_iff_exists.mp h
    rw [hw]
    rfl
  · rw [lookup_append_assoc]
    have hn : l.lookup k = Option.none := Option.not_isSome_iff_eq_none.mp h
    rw [hn]
    simp [List.lookup_cons]

theorem dictSet_lookup_ne {α β : Type} [DecidableEq α] (l : List (α × β)) (k c' : α) (v : β)
    (h : c' ≠ k) : (STPQ.dictSet l k v).lookup c' = l.lookup c' := by
  unfold STPQ.dictSet
  split_ifs with hp
  · rw [lookup_map_replace, if_neg h]
  · rw [lookup_append_assoc]
    cases hl : l.lookup c' with
    | some w => rfl
    | none => simp [List.lookup_cons, beq_false_of_ne h]

theorem updateNode_lookup_self {α : Type} [DecidableEq α] (t : STPQ.Tree α) (c : α)
    (f : STPQ.LBLNode α → STPQ.LBLNode α) :
    (STPQ.updateNode t c f).nodes.lookup c = (t.nodes.lookup c).map f := by
  unfold STPQ.updateNode
  rw [lookup_map_adjust, if_pos rfl]

theorem updateNode_lookup_ne {α : Type} [DecidableEq α] (t : STPQ.Tree α) (c c' : α)
    (f : STPQ.LBLNode α → STPQ.LBLNode α) (h : c' ≠ c) :
    (STPQ.updateNode t c f).nodes.lookup c' = t.nodes.lookup c' := by
  unfold STPQ.updateNode
  rw [lookup_map_adjust, if_neg h]

/-- C5: behaviour of `SearchTreePriorityQueue.add_node` (quality/heuristic
scorers abstracted as `qf`/`hf`, see `qualityApply`/`heuristicApply`).
New concept (not in the index), fresh node: a zero quality returns `False`
with the tree untouched (nothing indexed or enqueued); a non-zero quality
indexes the scored node, enqueues it, attaches it as a child of
`parent_node`, and returns `True` exactly when the quality equals 1
(`None` otherwise).  Concept already indexed with the node's parent
different from `parent_node`: the heuristic is recomputed; if it is not
strictly greater than the old one, the tree is returned unchanged with
`None` (no error); if strictly greater, the node is detached from its old
parent's children, re-parented under `parent_node`, re-enqueued and
re-indexed, again returning `None`. -/
theorem C5_stpq_add_node {α : Type} [DecidableEq α] (qf hf : α → ℚ)
    (t : STPQ.Tree α) (node : STPQ.LBLNode α) (pc : α) :
    (t.nodes.lookup node.concept = Option.none → node.quality = Option.none →
      ((qf node.concept = 0 →
         STPQ.add_node qf hf t node pc =
           .ok (t, { node with quality := some 0 }, some false))
       ∧ (qf node.concept ≠ 0 → pc ≠ node.concept →
           ∃ t' : STPQ.Tree α,
             STPQ.add_node qf hf t node pc =
               .ok (t',
                 { node with quality := some (qf node.concept),
                             heuristic := some (hf node.concept) },
                 if qf node.concept = 1 then some true else Option.none)
             ∧ t'.nodes.lookup node.concept =
                 some { node with quality := some (qf node.concept),
                                  heuristic := some (hf node.concept) }
             ∧ (-(hf node.concept), node.concept) ∈ t'.items_in_queue
             ∧ (∀ p, t.nodes.lookup pc = some p →
                  t'.nodes.lookup pc =
                    some { p with children := p.children ++ [node.concept] }))))
    ∧ (∀ oldH, (t.nodes.lookup node.concept).isSome = true →
        node.heuristic = some oldH → node.parent ≠ some pc →
      ((hf node.concept ≤ oldH →
         STPQ.add_node qf hf t node pc =
           .ok (t, { node with heuristic := some (hf node.concept) }, Option.none))
       ∧ (oldH < hf node.concept → ∀ op, node.parent = some op →
           op ≠ pc → op ≠ node.concept → pc ≠ node.concept →
           ∃ t' : STPQ.Tree α,
             STPQ.add_node qf hf t node pc =
               .ok (t',
                 { node with heuristic := some (hf node.concept), parent := some pc },
                 Option.none)
             ∧ t'.nodes.lookup node.concept =
                 some { node with heuristic := some (hf node.concept), parent := some pc }
             ∧ (-(hf node.concept), node.concept) ∈ t'.items_in_queue
             ∧ (∀ p, t.nodes.lookup op = some p →
                  t'.nodes.lookup op =
                    some { p with children := p.children.erase node.concept })
             ∧ (∀ p, t.nodes.lookup pc = some p →
                  t'.nodes.lookup pc =
                    some { p with children := p.children ++ [node.concept] })))) := by
  constructor
  · intro hnew hq
    have hcond : ¬ ((t.nodes.lookup node.concept).isSome ∧ node.parent ≠ some pc) := by
      simp [hnew]
    constructor
    · intro h0
      unfold STPQ.add_node
      rw [if_neg hcond]
      unfold STPQ.qualityApply
      rw [hq]
      dsimp only
      rw [if_pos h0, h0]
    · intro hq0 hpc
      unfold STPQ.add_node
      rw [if_neg hcond]
      unfold STPQ.qualityApply
      rw [hq]
      dsimp only
      rw [if_neg hq0]
      dsimp only [STPQ.heuristicApply]
      refine ⟨_, rfl, ?_, ?_, ?_⟩
      · rw [updateNode_lookup_ne _ _ _ _ (Ne.symm hpc)]
        exact dictSet_lookup_self _ _ _
      · simp [STPQ.updateNode]
      · intro p hp
        rw [updateNode_lookup_self]
        rw [dictSet_lookup_ne _ _ _ _ hpc]
        show (t.nodes.lookup pc).map _ = _
        rw [hp]
        rfl
  · intro oldH hsome hold hpar
    have hcond : (t.nodes.lookup node.concept).isSome ∧ node.parent ≠ some pc :=
      ⟨hsome, hpar⟩
    constructor
    · intro hle
      unfold STPQ.add_node
      rw [if_pos hcond]
      rw [hold]
      dsimp only
      rw [if_neg (not_lt.mpr hle)]
      rfl
    · intro hlt op hop hopc hopn hpcn
      unfold STPQ.add_node
      rw [if_pos hcond]
      rw [hold]
      dsimp only
      rw [if_pos hlt]
      dsimp only [STPQ.heuristicApply]
      rw [hop]
      dsimp only
      refine ⟨_, rfl, ?_, ?_, ?_, ?_⟩
      · exact dictSet_lookup_self _ _ _
      · simp [STPQ.updateNode]
      · intro p hp
        rw [dictSet_lookup_ne _ _ _ _ hopn]
        rw [updateNode_lookup_ne _ _ _ _ hopc]
        rw [updateNode_lookup_self]
        rw [hp]
        rfl
      · intro p hp
        rw [dictSet_lookup_ne _ _ _ _ hpcn]
        rw [updateNode_lookup_self]
        rw [updateNode_lookup_ne _ _ _ _ (Ne.symm hopc)]
        rw [hp]
        rfl

/-- C5 witness: adding the fresh node for concept 1 (quality scoring to 1)
under the root 0 of a one-node tree indexes and enqueues it, attaches it
as child of the root, and reports the goal (`True`). -/
theorem C5_stpq_add_node_witness :
    ∃ t' : STPQ.Tree ℕ,
      STPQ.add_node (fun _ => (1 : ℚ)) (fun _ => (2 : ℚ))
          ⟨[(0, ⟨0, Option.none, [], some 1, some 5⟩)], [(-5, 0)]⟩
          ⟨1, some 0, [], Option.none, Option.none⟩ 0 =
        .ok (t', ⟨1, some 0, [], some 1, some 2⟩, some true)
      ∧ t'.nodes.lookup 1 = some ⟨1, some 0, [], some 1, some 2⟩
      ∧ ((-2 : ℚ), 1) ∈ t'.items_in_queue
      ∧ (∀ p, ([(0, (⟨0, Option.none, [], some 1, some 5⟩ : STPQ.LBLNode ℕ))] :
            List (ℕ × STPQ.LBLNode ℕ)).lookup 0 = some p →
          t'.nodes.lookup 0 = some { p with children := p.children ++ [1] }) := by
  have h := ((C5_stpq_add_node (fun _ => (1 : ℚ)) (fun _ => (2 : ℚ))
      ⟨[(0, ⟨0, Option.none, [], some 1, some 5⟩)], [(-5, 0)]⟩
      ⟨1, some 0, [], Option.none, Option.none⟩ 0).1 (by decide) rfl).2
      (by norm_num) (by decide)
  simpa using h

theorem expectChar_cons_self (c : Char) (t : List Char) :
    SemanticCaching.expectChar c (c :: t) = some t := by
  simp [SemanticCaching.expectChar]

theorem takeWhile_append_delim {w : List Char} {d : Char} {t : List Char}
    (hw : ∀ c ∈ w, SemanticCaching.isWordChar c = true)
    (hd : SemanticCaching.isWordChar d = false) :
    (w ++ d :: t).takeWhile SemanticCaching.isWordChar = w
    ∧ (w ++ d :: t).dropWhile SemanticCaching.isWordChar = d :: t := by
  induction w with
  | nil =>
    constructor
    · simp [List.takeWhile_cons, hd]
    · simp [List.dropWhile_cons, hd]
  | cons c cs ih =>
    have hc := hw c (List.mem_cons_self c cs)
    have ih' := ih (fun x hx => hw x (List.mem_cons_of_mem c hx))
    constructor
    · simp [List.takeWhile_cons, hc, ih'.1]
    · simp [List.dropWhile_cons, hc, ih'.2]

theorem takeWhile_word_all {w : List Char}
    (hw : ∀ c ∈ w, SemanticCaching.isWordChar c = true) :
    w.takeWhile SemanticCaching.isWordChar = w
    ∧ w.dropWhile SemanticCaching.isWordChar = [] := by
  induction w with
  | nil => simp
  | cons c cs ih =>
    have hc := hw c (List.mem_cons_self c cs)
    have ih' := ih (fun x hx => hw x (List.mem_cons_of_mem c hx))
    constructor
    · simp [List.takeWhile_cons, hc, ih'.1]
    · simp [List.dropWhile_cons, hc, ih'.2]

theorem isEmpty_false_of_ne_nil {w : List Char} (h : w ≠ []) : w.isEmpty = false := by
  cases w with
  | nil => exact absurd rfl h
  | cons c cs => rfl

theorem takeWord_append_delim {w : List Char} {d : Char} {t : List Char}
    (hne : w ≠ []) (hw : ∀ c ∈ w, SemanticCaching.isWordChar c = true)
    (hd : SemanticCaching.isWordChar d = false) :
    SemanticCaching.takeWord (w ++ d :: t) = some (w, d :: t) := by
  unfold SemanticCaching.takeWord
  rw [(takeWhile_append_delim hw hd).1, (takeWhile_append_delim hw hd).2]
  dsimp only
  rw [isEmpty_false_of_ne_nil hne]
  rfl

theorem takeWord_all {w : List Char} (hne : w ≠ [])
    (hw : ∀ c ∈ w, SemanticCaching.isWordChar c = true) :
    SemanticCaching.takeWord w = some (w, []) := by
  unfold SemanticCaching.takeWord
  rw [(takeWhile_word_all hw).1, (takeWhile_word_all hw).2]
  dsimp only
  rw [isEmpty_false_of_ne_nil hne]
  rfl

theorem matchNegAt_forall_neg {r A t : List Char} (hr : r ≠ [])
    (hrw : ∀ c ∈ r, SemanticCaching.isWordChar c = true) (hA : A ≠ [])
    (hAw : ∀ c ∈ A, SemanticCaching.isWordChar c = true) :
    SemanticCaching.matchNegAt ('∀' :: ' ' :: (r ++ '.' :: '(' :: '¬' :: (A ++ ')' :: t))) =
      some (r, A, t) := by
  simp only [SemanticCaching.matchNegAt, bind, Option.bind_eq_some, pure,
    Option.some.injEq, Prod.mk.injEq]
  refine ⟨_, expectChar_cons_self _ _, _, expectChar_cons_self _ _,
    (r, _), takeWord_append_delim hr hrw (by decide),
    _, expectChar_cons_self _ _, _, expectChar_cons_self _ _, _, expectChar_cons_self _ _,
    (A, _), takeWord_append_delim hA hAw (by decide),
    _, expectChar_cons_self _ _, rfl, rfl, rfl⟩

theorem matchAllAt_forall_named {r A : List Char} (hr : r ≠ [])
    (hrw : ∀ c ∈ r, SemanticCaching.isWordChar c = true) (hA : A ≠ [])
    (hAw : ∀ c ∈ A, SemanticCaching.isWordChar c = true) :
    SemanticCaching.matchAllAt ('∀' :: ' ' :: (r ++ '.' :: A)) = some (r, A, []) := by
  simp only [SemanticCaching.matchAllAt, bind, Option.bind_eq_some, pure,
    Option.some.injEq, Prod.mk.injEq]
  refine ⟨_, expectChar_cons_self _ _, _, expectChar_cons_self _ _,
    (r, _), takeWord_append_delim hr hrw (by decide),
    _, expectChar_cons_self _ _,
    (A, _), takeWord_all hA hAw, rfl, rfl, rfl⟩

theorem matchNegAt_head_ne {c : Char} {cs : List Char} (h : c ≠ '∀') :
    SemanticCaching.matchNegAt (c :: cs) = none := by
  have h1 : SemanticCaching.expectChar '∀' (c :: cs) = none := by
    simp [SemanticCaching.expectChar, h]
  simp [SemanticCaching.matchNegAt, h1]

theorem matchAllAt_head_ne {c : Char} {cs : List Char} (h : c ≠ '∀') :
    SemanticCaching.matchAllAt (c :: cs) = none := by
  have h1 : SemanticCaching.expectChar '∀' (c :: cs) = none := by
    simp [SemanticCaching.expectChar, h]
  simp [SemanticCaching.matchAllAt, h1]

theorem matchNegAt_forall_named_none {r A : List Char} (hr : r ≠ [])
    (hrw : ∀ c ∈ r, SemanticCaching.isWordChar c = true) (hA : A ≠ [])
    (hAw : ∀ c ∈ A, SemanticCaching.isWordChar c = true) :
    SemanticCaching.matchNegAt ('∀' :: ' ' :: (r ++ '.' :: A)) = none := by
  obtain ⟨a0, A', rfl⟩ : ∃ a0 A', A = a0 :: A' := by
    cases A with
    | nil => exact absurd rfl hA
    | cons x xs => exact ⟨x, xs, rfl⟩
  have ha0 : SemanticCaching.isWordChar a0 = true := hAw a0 (List.mem_cons_self _ _)
  have ha0p : a0 ≠ '(' := by
    intro he
    rw [he] at ha0
    exact absurd ha0 (by decide)
  have h4 : SemanticCaching.expectChar '(' (a0 :: A') = none := by
    simp [SemanticCaching.expectChar, ha0p]
  simp only [SemanticCaching.matchNegAt, bind]
  rw [expectChar_cons_self]
  rw [Option.some_bind]
  rw [expectChar_cons_self]
  rw [Option.some_bind]
  rw [takeWord_append_delim hr hrw (by decide)]
  rw [Option.some_bind]
  rw [expectChar_cons_self]
  rw [Option.some_bind]
  rw [h4]
  rfl

theorem subNeg_match {l w1 w2 r : List Char}
    (hm : SemanticCaching.matchNegAt l = some (w1, w2, r)) :
    SemanticCaching.subNeg l = '∃' :: ' ' :: (w1 ++ '.' :: (w2 ++ SemanticCaching.subNeg r)) := by
  conv_lhs => unfold SemanticCaching.subNeg
  split
  · rename_i w1' w2' r' heq
    rw [hm] at heq
    simp only [Option.some.injEq, Prod.mk.injEq] at heq
    obtain ⟨rfl, rfl, rfl⟩ := heq
    rfl
  · rename_i heq
    rw [hm] at heq
    cases heq

theorem subNeg_nomatch_cons {c : Char} {cs : List Char}
    (hm : SemanticCaching.matchNegAt (c :: cs) = none) :
    SemanticCaching.subNeg (c :: cs) = c :: SemanticCaching.subNeg cs := by
  conv_lhs => unfold SemanticCaching.subNeg
  split
  · rename_i w1' w2' r' heq
    rw [hm] at heq
    cases heq
  · rfl

theorem subNeg_nil : SemanticCaching.subNeg [] = [] := by
  conv_lhs => unfold SemanticCaching.subNeg
  rfl

theorem subAll_match {l w1 w2 r : List Char}
    (hm : SemanticCaching.matchAllAt l = some (w1, w2, r)) :
    SemanticCaching.subAll l =
      '∃' :: ' ' :: (w1 ++ '.' :: '(' :: '¬' :: (w2 ++ ')' :: SemanticCaching.subAll r)) := by
  conv_lhs => unfold SemanticCaching.subAll
  split
  · rename_i w1' w2' r' heq
    rw [hm] at heq
    simp only [Option.some.injEq, Prod.mk.injEq] at heq
    obtain ⟨rfl, rfl, rfl⟩ := heq
    rfl
  · rename_i heq
    rw [hm] at heq
    cases heq

theorem subAll_nomatch_cons {c : Char} {cs : List Char}
    (hm : SemanticCaching.matchAllAt (c :: cs) = none) :
    SemanticCaching.subAll (c :: cs) = c :: SemanticCaching.subAll cs := by
  conv_lhs => unfold SemanticCaching.subAll
  split
  · rename_i w1' w2' r' heq
    rw [hm] at heq
    cases heq
  · rfl

theorem subAll_nil : SemanticCaching.subAll [] = [] := by
  conv_lhs => unfold SemanticCaching.subAll
  rfl

theorem not_forall_of_word {l : List Char}
    (h : ∀ c ∈ l, SemanticCaching.isWordChar c = true) : '∀' ∉ l := by
  intro hm
  have := h _ hm
  exact absurd this (by decide)

theorem subNeg_no_forall {l : List Char} (h : '∀' ∉ l) :
    SemanticCaching.subNeg l = l := by
  induction l with
  | nil => exact subNeg_nil
  | cons c cs ih =>
    have hc : c ≠ '∀' := fun he => h (he ▸ List.mem_cons_self c cs)
    rw [subNeg_nomatch_cons (matchNegAt_head_ne hc)]
    rw [ih (fun hm => h (List.mem_cons_of_mem c hm))]

theorem subAll_no_forall {l : List Char} (h : '∀' ∉ l) :
    SemanticCaching.subAll l = l := by
  induction l with
  | nil => exact subAll_nil
  | cons c cs ih =>
    have hc : c ≠ '∀' := fun he => h (he ▸ List.mem_cons_self c cs)
    rw [subAll_nomatch_cons (matchAllAt_head_ne hc)]
    rw [ih (fun hm => h (List.mem_cons_of_mem c hm))]

theorem no_forall_exists_shape {r A : List Char}
    (hrw : ∀ c ∈ r, SemanticCaching.isWordChar c = true)
    (hAw : ∀ c ∈ A, SemanticCaching.isWordChar c = true) :
    '∀' ∉ ('∃' :: ' ' :: (r ++ '.' :: A)) := by
  intro hm
  simp only [List.mem_cons, List.mem_append] at hm
  rcases hm with h | h | h | h | h
  · exact absurd h (by decide)
  · exact absurd h (by decide)
  · exact not_forall_of_word hrw h
  · exact absurd h (by decide)
  · exact not_forall_of_word hAw h

theorem no_forall_space_shape {r A : List Char}
    (hrw : ∀ c ∈ r, SemanticCaching.isWordChar c = true)
    (hAw : ∀ c ∈ A, SemanticCaching.isWordChar c = true) :
    '∀' ∉ (' ' :: (r ++ '.' :: A)) := by
  intro hm
  simp only [List.mem_cons, List.mem_append] at hm
  rcases hm with h | h | h | h
  · exact absurd h (by decide)
  · exact not_forall_of_word hrw h
  · exact absurd h (by decide)
  · exact not_forall_of_word hAw h

/-- C7: for a universal restriction over a named role and a named (or
negated named) filler — the only shapes the harness generates, with names
drawn from word characters — the caching wrapper first rewrites the
rendered expression textually to its existential dual
(`∀ r.(¬A)` becomes `∃ r.A`, and `∀ r.A` becomes `∃ r.(¬A)`), and the
`OWLObjectAllValuesFrom` branch then returns
`All_individuals - cached(dual)` when the dual's extension is in the
cache, and the underlying retrieval function's result otherwise. -/
theorem C7_forall_rewrite_branch {ι : Type} [DecidableEq ι]
    (cacheGet : List Char → Option (Finset ι)) (All_individuals funcResult : Finset ι)
    (r A : List Char) (hr : r ≠ [])
    (hrw : ∀ c ∈ r, SemanticCaching.isWordChar c = true)
    (hA : A ≠ []) (hAw : ∀ c ∈ A, SemanticCaching.isWordChar c = true) :
    (SemanticCaching.transform_forall_to_exists
        (SemanticCaching.toDL (.objectAllValuesFrom r (.objectComplementOf (.cls A)))) =
      SemanticCaching.toDL (.objectSomeValuesFrom r (.cls A)))
    ∧ (SemanticCaching.transform_forall_to_exists
        (SemanticCaching.toDL (.objectAllValuesFrom r (.cls A))) =
      SemanticCaching.toDL (.objectSomeValuesFrom r (.objectComplementOf (.cls A))))
    ∧ (SemanticCaching.allValuesFromBranch cacheGet All_individuals funcResult
        (.objectAllValuesFrom r (.objectComplementOf (.cls A))) =
        match cacheGet (SemanticCaching.toDL (.objectSomeValuesFrom r (.cls A))) with
        | some cached => All_individuals \ cached
        | Option.none => funcResult)
    ∧ (SemanticCaching.allValuesFromBranch cacheGet All_individuals funcResult
        (.objectAllValuesFrom r (.cls A)) =
        match cacheGet (SemanticCaching.toDL
            (.objectSomeValuesFrom r (.objectComplementOf (.cls A)))) with
        | some cached => All_individuals \ cached
        | Option.none => funcResult) := by
  have h1 : SemanticCaching.transform_forall_to_exists
      (SemanticCaching.toDL (.objectAllValuesFrom r (.objectComplementOf (.cls A)))) =
      SemanticCaching.toDL (.objectSomeValuesFrom r (.cls A)) := by
    show SemanticCaching.subAll (SemanticCaching.subNeg
      ('∀' :: ' ' :: (r ++ '.' :: '(' :: '¬' :: (A ++ ')' :: [])))) = _
    rw [subNeg_match (matchNegAt_forall_neg hr hrw hA hAw)]
    rw [subNeg_nil, List.append_nil]
    rw [subAll_no_forall (no_forall_exists_shape hrw hAw)]
    rfl
  have h2 : SemanticCaching.transform_forall_to_exists
      (SemanticCaching.toDL (.objectAllValuesFrom r (.cls A))) =
      SemanticCaching.toDL (.objectSomeValuesFrom r (.objectComplementOf (.cls A))) := by
    show SemanticCaching.subAll (SemanticCaching.subNeg
      ('∀' :: ' ' :: (r ++ '.' :: A))) = _
    rw [subNeg_nomatch_cons (matchNegAt_forall_named_none hr hrw hA hAw)]
    rw [subNeg_no_forall (no_forall_space_shape hrw hAw)]
    rw [subAll_match (matchAllAt_forall_named hr hrw hA hAw)]
    rw [subAll_nil]
    rfl
  refine ⟨h1, h2, ?_, ?_⟩
  · unfold SemanticCaching.allValuesFromBranch
    rw [h1]
  · unfold SemanticCaching.allValuesFromBranch
    rw [h2]

/-- C7 witness: with role name `r` and class name `A`, the transform sends
`∀ r.(¬A)` to `∃ r.A` and `∀ r.A` to `∃ r.(¬A)`, and against a concrete
cache holding `{0, 1}` for `∃ r.A` over the universe `{0, 1, 2}` the
branch answers `{2}` for `∀ r.(¬A)`. -/
theorem C7_forall_rewrite_branch_witness :
    (SemanticCaching.transform_forall_to_exists
        (SemanticCaching.toDL (.objectAllValuesFrom ['r']
          (.objectComplementOf (.cls ['A'])))) =
      SemanticCaching.toDL (.objectSomeValuesFrom ['r'] (.cls ['A'])))
    ∧ SemanticCaching.allValuesFromBranch
        (fun s => if s = SemanticCaching.toDL (.objectSomeValuesFrom ['r'] (.cls ['A']))
          then some ({0, 1} : Finset ℕ) else Option.none)
        ({0, 1, 2} : Finset ℕ) ∅
        (.objectAllValuesFrom ['r'] (.objectComplementOf (.cls ['A']))) = {2} := by
  have h := C7_forall_rewrite_branch
    (fun s => if s = SemanticCaching.toDL (.objectSomeValuesFrom ['r'] (.cls ['A']))
      then some ({0, 1} : Finset ℕ) else Option.none)
    ({0, 1, 2} : Finset ℕ) ∅ ['r'] ['A'] (by decide) (by decide) (by decide) (by decide)
  refine ⟨h.1, ?_⟩
  rw [h.2.2.1]
  decide
